import Mathlib

/-!
Shallow embedding of the animation sequencing core of
`linear-search-visualizer` (`src/app.py`).

The embedded functions are `progress_html` (its percentage, `progress_pct`),
the smoothstep easing computed inside `linear_search_animated`, the
speed-to-frame-count conversion `frames_per_step`, and the generator
`linear_search_animated` itself, modelled as the finite list of yielded
frames.  Python float arithmetic is modelled exactly over `ℚ`; `int()` on the
nonnegative values that occur here is the rational floor.  `time.sleep` calls
are pacing only and carry no data, so they are not modelled.  The rendered
image of `draw_frame` is modelled by its informative arguments
`(current_index, found_index, checked_indices, glow_strength)`; the first
three yields of the generator pass `None` as the image, modelled by `none`.
Status strings are modelled by an inductive type with one constructor per
format string, carrying the interpolated values.
-/

namespace LinearSearchVisualizer

/-- The status texts yielded by `linear_search_animated`, one constructor per
format string in `src/app.py`, carrying the values interpolated into it. -/
inductive Status where
  /-- `"Invalid list!"` (the `eval` failure branch). -/
  | invalidList : Status
  /-- `"Pick a target number."` -/
  | pickTarget : Status
  /-- `f"{target} is NOT in the list."` -/
  | notInList (target : ℤ) : Status
  /-- `"Starting search…"` -/
  | starting : Status
  /-- `f"Checking index {i}…"` -/
  | checking (i : ℕ) : Status
  /-- `f"Comparing {val} with {target}…"` -/
  | comparing (val target : ℤ) : Status
  /-- `f"FOUND {target} at index {i}!,"` -/
  | found (target : ℤ) (i : ℕ) : Status
  /-- `f"No match, moving to index {i+1}"` (carries `i+1`). -/
  | noMatch (nextIndex : ℕ) : Status
  /-- `"End of search."` -/
  | endOfSearch : Status
deriving DecidableEq, Repr

/-- The informative arguments of `draw_frame`: the visual state of one frame.
`current_index` and `found_index` use the source's `-1` sentinel for "none";
`checked_indices` is a Python set of indices; `glow_strength` is a float,
modelled exactly in `ℚ`. -/
structure Visual where
  currentIndex : ℤ
  foundIndex : ℤ
  checked : Finset ℕ
  glow : ℚ
deriving DecidableEq

/-- One yielded tuple `(status_text, image, step_html, progress_html)` of the
generator: the status, the visual state handed to `draw_frame` (`none` when
the generator yields `None` as the image), the `format_steps` argument, and
the percentage shown by `progress_html`. -/
structure Frame where
  status : Status
  visual : Option Visual
  step : ℕ
  progress : ℕ
deriving DecidableEq

/-- The percentage computed by `progress_html`:
`pct = int((done / max(1, total)) * 100)`.  Over exact arithmetic with
`done ≥ 0` this is `⌊100 * done / max 1 total⌋`, i.e. ℕ division. -/
def progress_pct (done total : ℕ) : ℕ :=
  100 * done / max 1 total

/-- The smoothstep easing computed in the approach loop:
`ease = t * t * (3 - 2 * t)`. -/
def ease (t : ℚ) : ℚ :=
  t * t * (3 - 2 * t)

/-- The speed conversion:
`frames_per_step = max(1, int(12 - (speed - 1) * 1.1))`.
Python `int()` truncates toward zero; clamped below by `max 1` this agrees
with the rational floor for every argument, so the floor is used here. -/
def frames_per_step (speed : ℤ) : ℕ :=
  (max 1 ⌊(12 : ℚ) - ((speed : ℚ) - 1) * 1.1⌋).toNat

/-- The initial frame yielded before the loop:
`yield "Starting search…", draw_frame(arr, -1, -1, checked), format_steps(1), progress_html(0, n)`
with `checked` still empty. -/
def start_frame (n : ℕ) : Frame :=
  { status := .starting
    visual := some ⟨-1, -1, ∅, 0⟩
    step := 1
    progress := progress_pct 0 n }

/-- The approach sub-frames for index `i`: for `f` in `range(frames_per_step)`,
`t = (f + 1) / frames_per_step`, glow `0.5 * ease`, status
`f"Checking index {i}…"`, step 2, progress from `i` (not yet incremented). -/
def approach_frames (i : ℕ) (checked : Finset ℕ) (fps n : ℕ) : List Frame :=
  (List.range fps).map fun (f : ℕ) =>
    { status := .checking i
      visual := some ⟨(i : ℤ), -1, checked, 0.5 * ease (((f : ℚ) + 1) / (fps : ℚ))⟩
      step := 2
      progress := progress_pct i n }

/-- The comparison frame for index `i` holding value `val`: glow `0.8`,
status `f"Comparing {val} with {target}…"`, step 2, progress from `i + 1`. -/
def compare_frame (val target : ℤ) (i : ℕ) (checked : Finset ℕ) (n : ℕ) : Frame :=
  { status := .comparing val target
    visual := some ⟨(i : ℤ), -1, checked, 0.8⟩
    step := 2
    progress := progress_pct (i + 1) n }

/-- The six found pulses: for `p` in `range(6)`,
`pulse = 0.6 + 0.9 * (1 - abs((p / 5) - 0.5) * 2)`, drawn with
`current_index = found_index = i` and the checked set already containing `i`,
step 3, progress `progress_html(n, n)`. -/
def found_frames (target : ℤ) (i : ℕ) (checked : Finset ℕ) (n : ℕ) : List Frame :=
  (List.range 6).map fun (p : ℕ) =>
    { status := .found target i
      visual := some ⟨(i : ℤ), (i : ℤ), checked,
        0.6 + 0.9 * (1 - |((p : ℚ) / 5) - 0.5| * 2)⟩
      step := 3
      progress := progress_pct n n }

/-- The advance frame after a failed comparison at index `i`: glow `0.2`,
drawn with `current_index = i` and the checked set already containing `i`,
status `f"No match, moving to index {i+1}"`, step 4, progress from `i + 1`. -/
def advance_frame (i : ℕ) (checked : Finset ℕ) (n : ℕ) : Frame :=
  { status := .noMatch (i + 1)
    visual := some ⟨(i : ℤ), -1, checked, 0.2⟩
    step := 4
    progress := progress_pct (i + 1) n }

/-- The end-of-search frame after the loop exhausts: indices `-1`, step 5,
progress `progress_html(n, n)`. -/
def end_frame (checked : Finset ℕ) (n : ℕ) : Frame :=
  { status := .endOfSearch
    visual := some ⟨-1, -1, checked, 0⟩
    step := 5
    progress := progress_pct n n }

/-- The `for i, val in enumerate(arr)` body of `linear_search_animated`,
recursing over the remaining list with explicit index `i` and accumulated
checked set.  Per element: approach sub-frames, comparison frame,
`checked.add(i)`, then either the six found pulses and `return`, or the
advance frame and the next index.  Falls through to the end frame. -/
def search_loop (target : ℤ) (fps n : ℕ) : ℕ → Finset ℕ → List ℤ → List Frame
  | _, checked, [] => [end_frame checked n]
  | i, checked, val :: rest =>
    approach_frames i checked fps n ++
      compare_frame val target i checked n ::
        (if val = target then
          found_frames target i (insert i checked) n
        else
          advance_frame i (insert i checked) n ::
            search_loop target fps n (i + 1) (insert i checked) rest)

/-- The full generator `linear_search_animated(arr, target, speed)` as the
list of yielded frames.  The `eval` parse of a textual `arr` is host glue
(the core receives the parsed list); `target is None` is modelled by
`Option`; the `target not in arr` guard and both terminal branches follow
the source order. -/
def linear_search_animated (arr : List ℤ) (target : Option ℤ) (speed : ℤ) :
    List Frame :=
  match target with
  | none =>
    [{ status := .pickTarget, visual := none, step := 0,
       progress := progress_pct 0 arr.length }]
  | some t =>
    if t ∈ arr then
      start_frame arr.length ::
        search_loop t (frames_per_step speed) arr.length 0 ∅ arr
    else
      [{ status := .notInList t, visual := none, step := 0,
         progress := progress_pct 0 arr.length }]

/-- Ordering relation between two frames: the earlier frame's checked set is
contained in the later frame's (on frames that carry a visual state). -/
def check_mono (a b : Frame) : Prop :=
  ∀ va vb, a.visual = some va → b.visual = some vb → va.checked ⊆ vb.checked

/-! ### Helper lemmas about the frame building blocks -/

lemma approach_frames_length (i : ℕ) (checked : Finset ℕ) (fps n : ℕ) :
    (approach_frames i checked fps n).length = fps := by
  rw [approach_frames, List.length_map, List.length_range]

lemma mem_approach_frames {fr : Frame} {i : ℕ} {checked : Finset ℕ} {fps n : ℕ}
    (h : fr ∈ approach_frames i checked fps n) :
    fr.status = .checking i ∧ fr.step = 2 ∧ fr.progress = progress_pct i n ∧
      ∃ g, fr.visual = some ⟨(i : ℤ), -1, checked, g⟩ := by
  simp only [approach_frames, List.mem_map, List.mem_range] at h
  obtain ⟨f, -, rfl⟩ := h
  exact ⟨rfl, rfl, rfl, _, rfl⟩

lemma found_frames_length (t : ℤ) (i : ℕ) (cf : Finset ℕ) (n : ℕ) :
    (found_frames t i cf n).length = 6 := by
  rw [found_frames, List.length_map, List.length_range]

lemma mem_found_frames {fr : Frame} {t : ℤ} {i : ℕ} {cf : Finset ℕ} {n : ℕ}
    (h : fr ∈ found_frames t i cf n) :
    fr.status = .found t i ∧ fr.step = 3 ∧ fr.progress = progress_pct n n ∧
      ∃ g, fr.visual = some ⟨(i : ℤ), (i : ℤ), cf, g⟩ := by
  simp only [found_frames, List.mem_map, List.mem_range] at h
  obtain ⟨p, -, rfl⟩ := h
  exact ⟨rfl, rfl, rfl, _, rfl⟩

lemma progress_pct_zero (n : ℕ) : progress_pct 0 n = 0 := by
  simp [progress_pct]

lemma progress_pct_self {n : ℕ} (h : 1 ≤ n) : progress_pct n n = 100 := by
  rw [progress_pct, max_eq_right h, Nat.mul_div_cancel _ h]

lemma progress_pct_le_100 {done total : ℕ} (h : done ≤ total) :
    progress_pct done total ≤ 100 := by
  have h1 : (0 : ℕ) < max 1 total := lt_of_lt_of_le Nat.one_pos (le_max_left 1 total)
  calc 100 * done / max 1 total
      ≤ 100 * max 1 total / max 1 total :=
        Nat.div_le_div_right
          (Nat.mul_le_mul_left 100 (le_trans h (le_max_right 1 total)))
    _ = 100 := Nat.mul_div_cancel _ h1

lemma search_loop_length (t : ℤ) (fps n : ℕ) :
    ∀ (rest : List ℤ) (i : ℕ) (checked : Finset ℕ),
      (search_loop t fps n i checked rest).length ≤ rest.length * (fps + 2) + 7 := by
  intro rest
  induction rest with
  | nil =>
    intro i checked
    simp [search_loop]
  | cons val rest ih =>
    intro i checked
    have hmul : (rest.length + 1) * (fps + 2) = rest.length * (fps + 2) + (fps + 2) := by
      ring
    by_cases hv : val = t
    · simp only [search_loop]
      rw [if_pos hv]
      simp only [List.length_append, List.length_cons, approach_frames_length,
        found_frames_length]
      omega
    · have h := ih (i + 1) (insert i checked)
      simp only [search_loop]
      rw [if_neg hv]
      simp only [List.length_append, List.length_cons, approach_frames_length,
        hmul]
      omega

lemma search_loop_shape (t : ℤ) (fps n : ℕ) :
    ∀ (rest : List ℤ) (i : ℕ) (checked : Finset ℕ),
      t ∈ rest → (∀ m ∈ checked, m < i) →
      ∃ (j : ℕ) (cf : Finset ℕ) (pre : List Frame),
        rest[j]? = some t ∧
        (∀ k, k < j → rest[k]? ≠ some t) ∧
        search_loop t fps n i checked rest = pre ++ found_frames t (i + j) cf n ∧
        (i + j) ∈ cf ∧
        (∀ m ∈ cf, m ≤ i + j) ∧
        (∀ fr ∈ pre, fr.step = 2 ∨ fr.step = 4) ∧
        (∀ fr ∈ pre, ∀ v, fr.visual = some v →
          v.currentIndex ≤ ((i + j : ℕ) : ℤ) ∧ v.foundIndex = -1 ∧
            ∀ m ∈ v.checked, m ≤ i + j) := by
  intro rest
  induction rest with
  | nil =>
    intro i checked h _
    exact absurd h (List.not_mem_nil t)
  | cons val rest ih =>
    intro i checked hmem hchk
    by_cases hv : val = t
    · refine ⟨0, insert i checked,
        approach_frames i checked fps n ++ [compare_frame val t i checked n],
        by simp [hv], fun k hk => absurd hk (Nat.not_lt_zero k), ?_, ?_, ?_, ?_, ?_⟩
      · simp only [search_loop]
        rw [if_pos hv, Nat.add_zero]
        simp [List.append_assoc]
      · rw [Nat.add_zero]
        exact Finset.mem_insert_self i checked
      · intro m hm
        rcases Finset.mem_insert.1 hm with rfl | hm'
        · omega
        · have := hchk m hm'
          omega
      · intro fr hfr
        rcases List.mem_append.1 hfr with hA | hC
        · exact Or.inl (mem_approach_frames hA).2.1
        · rw [List.mem_singleton.1 hC]
          exact Or.inl rfl
      · intro fr hfr v hvis
        rcases List.mem_append.1 hfr with hA | hC
        · obtain ⟨-, -, -, g, hg⟩ := mem_approach_frames hA
          rw [hg] at hvis
          cases Option.some.inj hvis
          refine ⟨by show (i : ℤ) ≤ ((i + 0 : ℕ) : ℤ); exact_mod_cast Nat.le_add_right i 0, rfl, fun m hm => ?_⟩
          have := hchk m hm
          omega
        · rw [List.mem_singleton.1 hC] at hvis
          cases Option.some.inj hvis
          refine ⟨by show (i : ℤ) ≤ ((i + 0 : ℕ) : ℤ); exact_mod_cast Nat.le_add_right i 0, rfl, fun m hm => ?_⟩
          have := hchk m hm
          omega
    · have hmem' : t ∈ rest := by
        rcases List.mem_cons.1 hmem with h | h
        · exact absurd h.symm hv
        · exact h
      have hchk' : ∀ m ∈ insert i checked, m < i + 1 := by
        intro m hm
        rcases Finset.mem_insert.1 hm with rfl | hm'
        · omega
        · have := hchk m hm'
          omega
      obtain ⟨j', cf, pre, hj', hmin', heq, hcf1, hcf2, hsteps, hvis⟩ :=
        ih (i + 1) (insert i checked) hmem' hchk'
      have hidx : (i + 1) + j' = i + (j' + 1) := by omega
      refine ⟨j' + 1, cf,
        approach_frames i checked fps n ++
          compare_frame val t i checked n ::
            advance_frame i (insert i checked) n :: pre,
        by simpa using hj', ?_, ?_, ?_, ?_, ?_, ?_⟩
      · intro k hk
        match k with
        | 0 => simpa using hv
        | k' + 1 =>
          have hk' : k' < j' := by omega
          simpa using hmin' k' hk'
      · simp only [search_loop]
        rw [if_neg hv, heq, hidx]
        simp [List.append_assoc]
      · rw [show i + (j' + 1) = (i + 1) + j' from hidx.symm]
        exact hcf1
      · intro m hm
        have := hcf2 m hm
        omega
      · intro fr hfr
        rcases List.mem_append.1 hfr with hA | hC
        · exact Or.inl (mem_approach_frames hA).2.1
        · rcases List.mem_cons.1 hC with rfl | hC'
          · exact Or.inl rfl
          · rcases List.mem_cons.1 hC' with rfl | hP
            · exact Or.inr rfl
            · exact hsteps fr hP
      · intro fr hfr v hvis'
        rcases List.mem_append.1 hfr with hA | hC
        · obtain ⟨-, -, -, g, hg⟩ := mem_approach_frames hA
          rw [hg] at hvis'
          cases Option.some.inj hvis'
          refine ⟨by show (i : ℤ) ≤ ((i + (j' + 1) : ℕ) : ℤ); exact_mod_cast Nat.le_add_right i (j' + 1), rfl, fun m hm => ?_⟩
          have := hchk m hm
          omega
        · rcases List.mem_cons.1 hC with rfl | hC'
          · cases Option.some.inj hvis'
            refine ⟨by show (i : ℤ) ≤ ((i + (j' + 1) : ℕ) : ℤ); exact_mod_cast Nat.le_add_right i (j' + 1), rfl, fun m hm => ?_⟩
            have := hchk m hm
            omega
          · rcases List.mem_cons.1 hC' with rfl | hP
            · cases Option.some.inj hvis'
              refine ⟨by show (i : ℤ) ≤ ((i + (j' + 1) : ℕ) : ℤ); exact_mod_cast Nat.le_add_right i (j' + 1), rfl, fun m hm => ?_⟩
              rcases Finset.mem_insert.1 hm with rfl | hm'
              · omega
              · have := hchk m hm'
                omega
            · obtain ⟨hcur, hfound, hbound⟩ := hvis fr hP v hvis'
              refine ⟨by omega, hfound, fun m hm => ?_⟩
              have := hbound m hm
              omega

lemma search_loop_checked_superset (t : ℤ) (fps n : ℕ) :
    ∀ (rest : List ℤ) (i : ℕ) (checked : Finset ℕ),
      ∀ fr ∈ search_loop t fps n i checked rest, ∀ v, fr.visual = some v →
        checked ⊆ v.checked := by
  intro rest
  induction rest with
  | nil =>
    intro i checked fr hfr v hvis
    simp only [search_loop, List.mem_singleton] at hfr
    subst hfr
    cases Option.some.inj hvis
    exact Finset.Subset.refl _
  | cons val rest ih =>
    intro i checked fr hfr v hvis
    simp only [search_loop] at hfr
    rcases List.mem_append.1 hfr with hA | hC
    · obtain ⟨-, -, -, g, hg⟩ := mem_approach_frames hA
      rw [hg] at hvis
      cases Option.some.inj hvis
      exact Finset.Subset.refl _
    · rcases List.mem_cons.1 hC with rfl | hC'
      · cases Option.some.inj hvis
        exact Finset.Subset.refl _
      · by_cases hv : val = t
        · rw [if_pos hv] at hC'
          obtain ⟨-, -, -, g, hg⟩ := mem_found_frames hC'
          rw [hg] at hvis
          cases Option.some.inj hvis
          exact Finset.subset_insert i checked
        · rw [if_neg hv] at hC'
          rcases List.mem_cons.1 hC' with rfl | hR
          · cases Option.some.inj hvis
            exact Finset.subset_insert i checked
          · exact (Finset.subset_insert i checked).trans
              (ih (i + 1) (insert i checked) fr hR v hvis)

lemma search_loop_pairwise (t : ℤ) (fps n : ℕ) :
    ∀ (rest : List ℤ) (i : ℕ) (checked : Finset ℕ),
      (search_loop t fps n i checked rest).Pairwise check_mono := by
  intro rest
  induction rest with
  | nil =>
    intro i checked
    simp only [search_loop]
    exact List.pairwise_singleton _ _
  | cons val rest ih =>
    intro i checked
    simp only [search_loop]
    refine List.pairwise_append.2 ⟨?_, ?_, ?_⟩
    · refine List.pairwise_of_forall_mem_list fun a ha b hb => ?_
      obtain ⟨-, -, -, ga, hga⟩ := mem_approach_frames ha
      obtain ⟨-, -, -, gb, hgb⟩ := mem_approach_frames hb
      intro va vb hva hvb
      rw [hga] at hva
      rw [hgb] at hvb
      cases Option.some.inj hva
      cases Option.some.inj hvb
      exact Finset.Subset.refl _
    · refine List.pairwise_cons.2 ⟨?_, ?_⟩
      · intro b hb va vb hva hvb
        cases Option.some.inj hva
        show checked ⊆ vb.checked
        by_cases hv : val = t
        · rw [if_pos hv] at hb
          obtain ⟨-, -, -, g, hg⟩ := mem_found_frames hb
          rw [hg] at hvb
          cases Option.some.inj hvb
          exact Finset.subset_insert i checked
        · rw [if_neg hv] at hb
          rcases List.mem_cons.1 hb with rfl | hR
          · cases Option.some.inj hvb
            exact Finset.subset_insert i checked
          · exact (Finset.subset_insert i checked).trans
              (search_loop_checked_superset t fps n rest (i + 1)
                (insert i checked) b hR vb hvb)
      · by_cases hv : val = t
        · rw [if_pos hv]
          refine List.pairwise_of_forall_mem_list fun a ha b hb => ?_
          obtain ⟨-, -, -, ga, hga⟩ := mem_found_frames ha
          obtain ⟨-, -, -, gb, hgb⟩ := mem_found_frames hb
          intro va vb hva hvb
          rw [hga] at hva
          rw [hgb] at hvb
          cases Option.some.inj hva
          cases Option.some.inj hvb
          exact Finset.Subset.refl _
        · rw [if_neg hv]
          refine List.pairwise_cons.2 ⟨?_, ih (i + 1) (insert i checked)⟩
          intro b hb va vb hva hvb
          cases Option.some.inj hva
          show insert i checked ⊆ vb.checked
          exact search_loop_checked_superset t fps n rest (i + 1)
            (insert i checked) b hb vb hvb
    · intro a ha b hb va vb hva hvb
      obtain ⟨-, -, -, ga, hga⟩ := mem_approach_frames ha
      rw [hga] at hva
      cases Option.some.inj hva
      show checked ⊆ vb.checked
      rcases List.mem_cons.1 hb with rfl | hX
      · cases Option.some.inj hvb
        exact Finset.Subset.refl _
      · by_cases hv : val = t
        · rw [if_pos hv] at hX
          obtain ⟨-, -, -, g, hg⟩ := mem_found_frames hX
          rw [hg] at hvb
          cases Option.some.inj hvb
          exact Finset.subset_insert i checked
        · rw [if_neg hv] at hX
          rcases List.mem_cons.1 hX with rfl | hR
          · cases Option.some.inj hvb
            exact Finset.subset_insert i checked
          · exact (Finset.subset_insert i checked).trans
              (search_loop_checked_superset t fps n rest (i + 1)
                (insert i checked) b hR vb hvb)

lemma search_loop_frame_invariant (t : ℤ) (fps n : ℕ) :
    ∀ (rest : List ℤ) (i : ℕ) (checked : Finset ℕ), (∀ m ∈ checked, m < i) →
      ∀ fr ∈ search_loop t fps n i checked rest, ∀ v, fr.visual = some v →
        (0 ≤ v.foundIndex → v.foundIndex.toNat ∈ v.checked) ∧
        (fr.step = 2 → 0 ≤ v.currentIndex ∧ v.currentIndex.toNat ∉ v.checked) ∧
        ((fr.step = 3 ∨ fr.step = 4) →
          0 ≤ v.currentIndex ∧ v.currentIndex.toNat ∈ v.checked) := by
  intro rest
  induction rest with
  | nil =>
    intro i checked _ fr hfr v hvis
    simp only [search_loop, List.mem_singleton] at hfr
    subst hfr
    cases Option.some.inj hvis
    refine ⟨fun h0 => absurd h0 (by simp), fun h2 => absurd h2 (by simp [end_frame, start_frame, compare_frame, advance_frame]),
      fun h34 => ?_⟩
    rcases h34 with h34 | h34 <;> exact absurd h34 (by simp [end_frame, start_frame, compare_frame, advance_frame])
  | cons val rest ih =>
    intro i checked hchk fr hfr v hvis
    have hnotmem : i ∉ checked := fun hmem => absurd (hchk i hmem) (lt_irrefl i)
    simp only [search_loop] at hfr
    rcases List.mem_append.1 hfr with hA | hC
    · obtain ⟨-, hstep, -, g, hg⟩ := mem_approach_frames hA
      rw [hg] at hvis
      cases Option.some.inj hvis
      refine ⟨fun h0 => absurd h0 (by simp), fun _ => ?_, fun h34 => ?_⟩
      · refine ⟨Int.natCast_nonneg i, ?_⟩
        show ((i : ℤ)).toNat ∉ checked
        rw [Int.toNat_natCast]
        exact hnotmem
      · rcases h34 with h34 | h34 <;> omega
    · rcases List.mem_cons.1 hC with rfl | hC'
      · cases Option.some.inj hvis
        refine ⟨fun h0 => absurd h0 (by simp), fun _ => ?_, fun h34 => ?_⟩
        · refine ⟨Int.natCast_nonneg i, ?_⟩
          show ((i : ℤ)).toNat ∉ checked
          rw [Int.toNat_natCast]
          exact hnotmem
        · rcases h34 with h34 | h34 <;> exact absurd h34 (by simp [end_frame, start_frame, compare_frame, advance_frame])
      · by_cases hv : val = t
        · rw [if_pos hv] at hC'
          obtain ⟨-, hstep, -, g, hg⟩ := mem_found_frames hC'
          rw [hg] at hvis
          cases Option.some.inj hvis
          have hmem : ((i : ℤ)).toNat ∈ insert i checked := by
            rw [Int.toNat_natCast]
            exact Finset.mem_insert_self i checked
          exact ⟨fun _ => hmem, fun h2 => by omega,
            fun _ => ⟨Int.natCast_nonneg i, hmem⟩⟩
        · rw [if_neg hv] at hC'
          rcases List.mem_cons.1 hC' with rfl | hR
          · cases Option.some.inj hvis
            have hmem : ((i : ℤ)).toNat ∈ insert i checked := by
              rw [Int.toNat_natCast]
              exact Finset.mem_insert_self i checked
            refine ⟨fun h0 => absurd h0 (by simp),
              fun h2 => absurd h2 (by simp [end_frame, start_frame, compare_frame, advance_frame]), fun _ => ?_⟩
            exact ⟨Int.natCast_nonneg i, hmem⟩
          · have hchk' : ∀ m ∈ insert i checked, m < i + 1 := by
              intro m hm
              rcases Finset.mem_insert.1 hm with rfl | hm'
              · omega
              · have := hchk m hm'
                omega
            exact ih (i + 1) (insert i checked) hchk' fr hR v hvis

lemma search_loop_countP_checking_lt (t : ℤ) (fps n : ℕ) :
    ∀ (rest : List ℤ) (i : ℕ) (checked : Finset ℕ) (k : ℕ), k < i →
      (search_loop t fps n i checked rest).countP
        (fun fr => decide (fr.status = Status.checking k)) = 0 := by
  intro rest
  induction rest with
  | nil =>
    intro i checked k _
    simp [search_loop, end_frame]
  | cons val rest ih =>
    intro i checked k hk
    have hA : (approach_frames i checked fps n).countP
        (fun fr => decide (fr.status = Status.checking k)) = 0 := by
      refine List.countP_eq_zero.2 fun fr hfr => ?_
      have hst := (mem_approach_frames hfr).1
      simp only [hst, decide_eq_true_eq, Status.checking.injEq]
      omega
    have hc : (decide ((compare_frame val t i checked n).status =
        Status.checking k)) = false := by
      simp [compare_frame]
    by_cases hv : val = t
    · simp only [search_loop]
      rw [if_pos hv]
      simp only [List.countP_append, List.countP_cons]
      have hF : (found_frames t i (insert i checked) n).countP
          (fun fr => decide (fr.status = Status.checking k)) = 0 := by
        refine List.countP_eq_zero.2 fun fr hfr => ?_
        have hst := (mem_found_frames hfr).1
        simp [hst]
      simp [hA, hF, hc]
    · simp only [search_loop]
      rw [if_neg hv]
      simp only [List.countP_append, List.countP_cons]
      have ha : (decide ((advance_frame i (insert i checked) n).status =
          Status.checking k)) = false := by
        simp [advance_frame]
      have hrec := ih (i + 1) (insert i checked) k (by omega)
      simp [hA, hc, ha, hrec]

lemma search_loop_countP_checking_visited (t : ℤ) (fps n : ℕ) :
    ∀ (rest : List ℤ) (i j k : ℕ) (checked : Finset ℕ),
      rest[j]? = some t → (∀ m, m < j → rest[m]? ≠ some t) →
      i ≤ k → k ≤ i + j →
      (search_loop t fps n i checked rest).countP
        (fun fr => decide (fr.status = Status.checking k)) = fps := by
  intro rest
  induction rest with
  | nil =>
    intro i j k checked hj
    simp at hj
  | cons val rest ih =>
    intro i j k checked hj hmin hik hk
    have hc : (decide ((compare_frame val t i checked n).status =
        Status.checking k)) = false := by
      simp [compare_frame]
    by_cases hv : val = t
    · have hj0 : j = 0 := by
        by_contra hne
        exact hmin 0 (Nat.pos_of_ne_zero hne) (by simp [hv])
      subst hj0
      have hki : k = i := by omega
      subst hki
      simp only [search_loop]
      rw [if_pos hv]
      simp only [List.countP_append, List.countP_cons]
      have hA : (approach_frames k checked fps n).countP
          (fun fr => decide (fr.status = Status.checking k)) = fps := by
        have hall : (approach_frames k checked fps n).countP
            (fun fr => decide (fr.status = Status.checking k)) =
              (approach_frames k checked fps n).length := by
          refine List.countP_eq_length.2 fun fr hfr => ?_
          have hst := (mem_approach_frames hfr).1
          simp [hst]
        rw [hall, approach_frames_length]
      have hF : (found_frames t k (insert k checked) n).countP
          (fun fr => decide (fr.status = Status.checking k)) = 0 := by
        refine List.countP_eq_zero.2 fun fr hfr => ?_
        have hst := (mem_found_frames hfr).1
        simp [hst]
      simp [hA, hF, hc]
    · have hj0 : j ≠ 0 := by
        intro h0
        subst h0
        simp only [List.getElem?_cons_zero] at hj
        exact hv (Option.some.inj hj)
      obtain ⟨j', rfl⟩ : ∃ j', j = j' + 1 := ⟨j - 1, by omega⟩
      have hj' : rest[j']? = some t := by simpa using hj
      have hmin' : ∀ m, m < j' → rest[m]? ≠ some t := by
        intro m hm
        simpa using hmin (m + 1) (by omega)
      have ha : (decide ((advance_frame i (insert i checked) n).status =
          Status.checking k)) = false := by
        simp [advance_frame]
      simp only [search_loop]
      rw [if_neg hv]
      simp only [List.countP_append, List.countP_cons]
      by_cases hik' : k = i
      · subst hik'
        have hA : (approach_frames k checked fps n).countP
            (fun fr => decide (fr.status = Status.checking k)) = fps := by
          have hall : (approach_frames k checked fps n).countP
              (fun fr => decide (fr.status = Status.checking k)) =
                (approach_frames k checked fps n).length := by
            refine List.countP_eq_length.2 fun fr hfr => ?_
            have hst := (mem_approach_frames hfr).1
            simp [hst]
          rw [hall, approach_frames_length]
        have hrec := search_loop_countP_checking_lt t fps n rest (k + 1)
          (insert k checked) k (by omega)
        simp [hA, hc, ha, hrec]
      · have hA : (approach_frames i checked fps n).countP
            (fun fr => decide (fr.status = Status.checking k)) = 0 := by
          refine List.countP_eq_zero.2 fun fr hfr => ?_
          have hst := (mem_approach_frames hfr).1
          simp only [hst, decide_eq_true_eq, Status.checking.injEq]
          omega
        have hrec := ih (i + 1) j' k (insert i checked) hj' hmin'
          (by omega) (by omega)
        simp [hA, hc, ha, hrec]

/-! ### Claim theorems -/

/-- C1: for every array and every target present in it, the run ends with a
single Found phase: there is an index `i` with `arr[i] = T`, the sequence
contains exactly 6 Found-step (step 3) frames, every Found-step frame has
progress 100 and `currentIndex = foundIndex = i`, and no frame ever shows a
current index beyond `i` (no index after `i` is visited). -/
theorem found_run_terminates_with_found_phase (arr : List ℤ) (T : ℤ)
    (speed : ℤ) (hT : T ∈ arr) :
    ∃ i : ℕ, arr[i]? = some T ∧
      (∃ (cf : Finset ℕ) (pre : List Frame),
        linear_search_animated arr (some T) speed =
          (start_frame arr.length :: pre) ++ found_frames T i cf arr.length) ∧
      (linear_search_animated arr (some T) speed).countP
        (fun fr => fr.step == 3) = 6 ∧
      (∀ fr ∈ linear_search_animated arr (some T) speed, fr.step = 3 →
        fr.progress = 100 ∧
          ∃ v, fr.visual = some v ∧ v.currentIndex = (i : ℤ) ∧
            v.foundIndex = (i : ℤ)) ∧
      (∀ fr ∈ linear_search_animated arr (some T) speed, ∀ v,
        fr.visual = some v → v.currentIndex ≤ (i : ℤ)) := by
  obtain ⟨j, cf, pre, hj, hmin, heq, hcf1, hcf2, hsteps, hvis⟩ :=
    search_loop_shape T (frames_per_step speed) arr.length arr 0 ∅ hT
      (by intro m hm; exact absurd hm (Finset.not_mem_empty m))
  rw [Nat.zero_add] at heq hcf1 hcf2 hvis
  have hn : 1 ≤ arr.length := by
    obtain ⟨hlt, -⟩ := List.getElem?_eq_some.1 hj
    omega
  have hrun : linear_search_animated arr (some T) speed =
      start_frame arr.length ::
        (pre ++ found_frames T j cf arr.length) := by
    simp only [linear_search_animated]
    rw [if_pos hT, heq]
  refine ⟨j, hj, ⟨cf, pre, by rw [hrun, List.cons_append]⟩, ?_, ?_, ?_⟩
  · rw [hrun, List.countP_cons, List.countP_append]
    have hpre : pre.countP (fun fr => fr.step == 3) = 0 := by
      refine List.countP_eq_zero.2 fun fr hfr => ?_
      rcases hsteps fr hfr with h | h <;> simp [h]
    have hfnd : (found_frames T j cf arr.length).countP
        (fun fr => fr.step == 3) = 6 := by
      rw [← found_frames_length T j cf arr.length]
      refine List.countP_eq_length.2 fun fr hfr => ?_
      have := (mem_found_frames hfr).2.1
      simp [this]
    simp [hpre, hfnd, start_frame]
  · intro fr hfr h3
    rw [hrun] at hfr
    rcases List.mem_cons.1 hfr with rfl | hfr'
    · exact absurd h3 (by simp [start_frame])
    · rcases List.mem_append.1 hfr' with hP | hF
      · rcases hsteps fr hP with h | h <;> omega
      · obtain ⟨-, -, hprog, g, hg⟩ := mem_found_frames hF
        refine ⟨by rw [hprog]; exact progress_pct_self hn, _, hg, rfl, rfl⟩
  · intro fr hfr v hvis'
    rw [hrun] at hfr
    rcases List.mem_cons.1 hfr with rfl | hfr'
    · cases Option.some.inj hvis'
      show (-1 : ℤ) ≤ (j : ℤ)
      omega
    · rcases List.mem_append.1 hfr' with hP | hF
      · exact (hvis fr hP v hvis').1
      · obtain ⟨-, -, -, g, hg⟩ := mem_found_frames hF
        rw [hg] at hvis'
        cases Option.some.inj hvis'
        exact le_refl _

/-- Witness for C1 at `arr = [5]`, `T = 5`, `speed = 5`. -/
theorem found_run_terminates_with_found_phase_witness :
    ∃ i : ℕ, ([5] : List ℤ)[i]? = some 5 ∧
      (∃ (cf : Finset ℕ) (pre : List Frame),
        linear_search_animated [5] (some 5) 5 =
          (start_frame ([5] : List ℤ).length :: pre) ++
            found_frames 5 i cf ([5] : List ℤ).length) ∧
      (linear_search_animated [5] (some 5) 5).countP
        (fun fr => fr.step == 3) = 6 ∧
      (∀ fr ∈ linear_search_animated [5] (some 5) 5, fr.step = 3 →
        fr.progress = 100 ∧
          ∃ v, fr.visual = some v ∧ v.currentIndex = (i : ℤ) ∧
            v.foundIndex = (i : ℤ)) ∧
      (∀ fr ∈ linear_search_animated [5] (some 5) 5, ∀ v,
        fr.visual = some v → v.currentIndex ≤ (i : ℤ)) :=
  found_run_terminates_with_found_phase [5] 5 5 (by decide)

/-- C10: when the target occurs at more than one index, the Found frames sit
at the smallest index `i` holding the target, and no frame ever shows a
current index beyond `i` nor marks any index beyond `i` as checked — later
occurrences are never visited. -/
theorem duplicate_target_first_occurrence (arr : List ℤ) (T : ℤ) (speed : ℤ)
    (hdup : ∃ j k : ℕ, j < k ∧ arr[j]? = some T ∧ arr[k]? = some T) :
    ∃ i : ℕ, arr[i]? = some T ∧ (∀ k, k < i → arr[k]? ≠ some T) ∧
      (∀ fr ∈ linear_search_animated arr (some T) speed, fr.step = 3 →
        ∃ v, fr.visual = some v ∧ v.currentIndex = (i : ℤ) ∧
          v.foundIndex = (i : ℤ)) ∧
      (∀ fr ∈ linear_search_animated arr (some T) speed, ∀ v,
        fr.visual = some v →
          v.currentIndex ≤ (i : ℤ) ∧ ∀ m ∈ v.checked, m ≤ i) := by
  obtain ⟨j0, k0, -, hj0, -⟩ := hdup
  have hT : T ∈ arr := List.getElem?_mem hj0
  obtain ⟨j, cf, pre, hj, hmin, heq, hcf1, hcf2, hsteps, hvis⟩ :=
    search_loop_shape T (frames_per_step speed) arr.length arr 0 ∅ hT
      (by intro m hm; exact absurd hm (Finset.not_mem_empty m))
  rw [Nat.zero_add] at heq hcf1 hcf2 hvis
  have hrun : linear_search_animated arr (some T) speed =
      start_frame arr.length ::
        (pre ++ found_frames T j cf arr.length) := by
    simp only [linear_search_animated]
    rw [if_pos hT, heq]
  refine ⟨j, hj, hmin, ?_, ?_⟩
  · intro fr hfr h3
    rw [hrun] at hfr
    rcases List.mem_cons.1 hfr with rfl | hfr'
    · exact absurd h3 (by simp [start_frame])
    · rcases List.mem_append.1 hfr' with hP | hF
      · rcases hsteps fr hP with h | h <;> omega
      · obtain ⟨-, -, -, g, hg⟩ := mem_found_frames hF
        exact ⟨_, hg, rfl, rfl⟩
  · intro fr hfr v hvis'
    rw [hrun] at hfr
    rcases List.mem_cons.1 hfr with rfl | hfr'
    · cases Option.some.inj hvis'
      refine ⟨by show (-1 : ℤ) ≤ (j : ℤ); omega, fun m hm => ?_⟩
      exact absurd hm (Finset.not_mem_empty m)
    · rcases List.mem_append.1 hfr' with hP | hF
      · obtain ⟨h1, -, h3⟩ := hvis fr hP v hvis'
        exact ⟨h1, h3⟩
      · obtain ⟨-, -, -, g, hg⟩ := mem_found_frames hF
        rw [hg] at hvis'
        cases Option.some.inj hvis'
        exact ⟨le_refl _, hcf2⟩

/-- Witness for C10 at `arr = [7, 7]`, `T = 7`, `speed = 5`. -/
theorem duplicate_target_first_occurrence_witness :
    ∃ i : ℕ, ([7, 7] : List ℤ)[i]? = some 7 ∧
      (∀ k, k < i → ([7, 7] : List ℤ)[k]? ≠ some 7) ∧
      (∀ fr ∈ linear_search_animated [7, 7] (some 7) 5, fr.step = 3 →
        ∃ v, fr.visual = some v ∧ v.currentIndex = (i : ℤ) ∧
          v.foundIndex = (i : ℤ)) ∧
      (∀ fr ∈ linear_search_animated [7, 7] (some 7) 5, ∀ v,
        fr.visual = some v →
          v.currentIndex ≤ (i : ℤ) ∧ ∀ m ∈ v.checked, m ≤ i) :=
  duplicate_target_first_occurrence [7, 7] 7 5
    ⟨0, 1, Nat.zero_lt_one, by decide, by decide⟩

/-- C3 counterexample: with `arr = [1, 2]`, `target = 2`, `speed = 10`, the
advance frame for index 0 is yielded with `currentIndex = 0` while `0` is
already in its checked set (`checked.add(i)` runs before the advance frame is
drawn), refuting "currentIndex is never a member of checkedSet". -/
theorem current_index_in_checked_counterexample :
    ∃ fr ∈ linear_search_animated [1, 2] (some 2) 10, ∃ v,
      fr.visual = some v ∧ 0 ≤ v.currentIndex ∧
        v.currentIndex.toNat ∈ v.checked := by
  have hf : frames_per_step 10 = 2 := by
    have h : ⌊(12 : ℚ) - ((10 : ℚ) - 1) * 1.1⌋ = 2 := by norm_num
    simp [frames_per_step, h]
  refine ⟨advance_frame 0 (insert 0 ∅) 2, ?_,
    ⟨(0 : ℤ), -1, insert 0 ∅, 0.2⟩, rfl, by norm_num, by simp⟩
  have h : linear_search_animated [1, 2] (some 2) 10 =
      start_frame 2 :: search_loop 2 2 2 0 ∅ [1, 2] := by
    simp [linear_search_animated, hf]
  rw [h]
  simp [search_loop]

/-- C3 (amended): in every yielded frame, a set `foundIndex` is always a
member of the checked set; `currentIndex` is not in the checked set in
Compare-step frames (approach and comparison sub-frames, where the index has
not yet been added); in Found-step and Advance-step frames the current index
has already been added, so there `currentIndex` is a member of the checked
set. -/
theorem frame_invariant_amended (arr : List ℤ) (target : Option ℤ)
    (speed : ℤ) :
    ∀ fr ∈ linear_search_animated arr target speed, ∀ v, fr.visual = some v →
      (0 ≤ v.foundIndex → v.foundIndex.toNat ∈ v.checked) ∧
      (fr.step = 2 → 0 ≤ v.currentIndex ∧ v.currentIndex.toNat ∉ v.checked) ∧
      ((fr.step = 3 ∨ fr.step = 4) →
        0 ≤ v.currentIndex ∧ v.currentIndex.toNat ∈ v.checked) := by
  intro fr hfr v hvis
  match target with
  | none =>
    simp only [linear_search_animated, List.mem_singleton] at hfr
    subst hfr
    exact Option.noConfusion hvis
  | some t =>
    by_cases h : t ∈ arr
    · have hrw : linear_search_animated arr (some t) speed =
          start_frame arr.length ::
            search_loop t (frames_per_step speed) arr.length 0 ∅ arr := by
        simp only [linear_search_animated]
        rw [if_pos h]
      rw [hrw] at hfr
      rcases List.mem_cons.1 hfr with rfl | hR
      · cases Option.some.inj hvis
        refine ⟨fun h0 => absurd h0 (by simp),
          fun h2 => absurd h2 (by simp [end_frame, start_frame, compare_frame, advance_frame]), fun h34 => ?_⟩
        rcases h34 with h34 | h34 <;> exact absurd h34 (by simp [end_frame, start_frame, compare_frame, advance_frame])
      · exact search_loop_frame_invariant t (frames_per_step speed) arr.length
          arr 0 ∅ (by intro m hm; exact absurd hm (Finset.not_mem_empty m))
          fr hR v hvis
    · simp only [linear_search_animated] at hfr
      rw [if_neg h] at hfr
      simp only [List.mem_singleton] at hfr
      subst hfr
      exact Option.noConfusion hvis

/-- Witness for the amended C3 at the start frame of a run on `[1]`. -/
theorem frame_invariant_amended_witness :
    (0 ≤ (⟨-1, -1, ∅, 0⟩ : Visual).foundIndex →
      (⟨-1, -1, ∅, 0⟩ : Visual).foundIndex.toNat ∈
        (⟨-1, -1, ∅, 0⟩ : Visual).checked) ∧
    ((start_frame 1).step = 2 →
      0 ≤ (⟨-1, -1, ∅, 0⟩ : Visual).currentIndex ∧
        (⟨-1, -1, ∅, 0⟩ : Visual).currentIndex.toNat ∉
          (⟨-1, -1, ∅, 0⟩ : Visual).checked) ∧
    (((start_frame 1).step = 3 ∨ (start_frame 1).step = 4) →
      0 ≤ (⟨-1, -1, ∅, 0⟩ : Visual).currentIndex ∧
        (⟨-1, -1, ∅, 0⟩ : Visual).currentIndex.toNat ∈
          (⟨-1, -1, ∅, 0⟩ : Visual).checked) :=
  frame_invariant_amended [1] (some 1) 5 (start_frame 1)
    (by simp [linear_search_animated]) ⟨-1, -1, ∅, 0⟩ rfl

/-- C2 counterexample: at `speed = 2` the code emits
`max(1, int(12 - 1.1)) = 10` approach sub-frames per index (observed as the
number of "Checking index 0" frames on `arr = [5]`, `target = 5`), while the
claim's formula `max(1, round(12 - 1.1)) = round(10.9) = 11` predicts 11. -/
theorem speed_frame_count_round_counterexample :
    ¬ (((linear_search_animated [5] (some 5) 2).countP
          (fun fr => decide (fr.status = Status.checking 0)) : ℤ) =
        max 1 (round ((12 : ℚ) - ((2 : ℚ) - 1) * 1.1))) := by
  have hf : frames_per_step 2 = 10 := by
    have h : ⌊(12 : ℚ) - ((2 : ℚ) - 1) * 1.1⌋ = 10 := by norm_num
    simp [frames_per_step, h]
  have hcount : (linear_search_animated [5] (some 5) 2).countP
      (fun fr => decide (fr.status = Status.checking 0)) = 10 := by
    have h : linear_search_animated [5] (some 5) 2 =
        start_frame 1 :: search_loop 5 10 1 0 ∅ [5] := by
      simp [linear_search_animated, hf]
    rw [h]
    simp [search_loop, approach_frames, found_frames, start_frame,
      compare_frame, List.countP_cons, List.countP_append, List.range_succ]
  have hround : round ((12 : ℚ) - ((2 : ℚ) - 1) * 1.1) = 11 := by
    norm_num [round_eq]
  rw [hcount, hround]
  norm_num

/-- C2 (amended): the number of approach sub-frames emitted per visited
index equals `max(1, ⌊12 - (speed - 1) * 1.1⌋)` — Python `int()` truncation,
not arithmetic rounding: for every index `k` up to the first occurrence of
the target, the run contains exactly `frames_per_step speed` frames with
status "Checking index k", and `frames_per_step speed` equals the clamped
floor. -/
theorem approach_frame_count_floor (arr : List ℤ) (t : ℤ) (speed : ℤ)
    (j k : ℕ) (hj : arr[j]? = some t) (hmin : ∀ m, m < j → arr[m]? ≠ some t)
    (hk : k ≤ j) :
    (linear_search_animated arr (some t) speed).countP
        (fun fr => decide (fr.status = Status.checking k)) =
      frames_per_step speed ∧
    (frames_per_step speed : ℤ) =
      max 1 ⌊(12 : ℚ) - ((speed : ℚ) - 1) * 1.1⌋ := by
  constructor
  · have hT : t ∈ arr := List.getElem?_mem hj
    have hrw : linear_search_animated arr (some t) speed =
        start_frame arr.length ::
          search_loop t (frames_per_step speed) arr.length 0 ∅ arr := by
      simp only [linear_search_animated]
      rw [if_pos hT]
    rw [hrw, List.countP_cons]
    have h0 : (decide ((start_frame arr.length).status =
        Status.checking k)) = false := by
      simp [start_frame]
    rw [search_loop_countP_checking_visited t (frames_per_step speed)
      arr.length arr 0 j k ∅ hj hmin (Nat.zero_le k) (by omega)]
    simp [h0]
  · rw [frames_per_step, Int.toNat_of_nonneg]
    exact le_trans zero_le_one (le_max_left 1 _)

/-- Witness for the amended C2 at `arr = [5]`, `target = 5`, `speed = 5`,
index 0. -/
theorem approach_frame_count_floor_witness :
    (linear_search_animated [5] (some 5) 5).countP
        (fun fr => decide (fr.status = Status.checking 0)) =
      frames_per_step 5 ∧
    (frames_per_step 5 : ℤ) =
      max 1 ⌊(12 : ℚ) - ((5 : ℚ) - 1) * 1.1⌋ :=
  approach_frame_count_floor [5] 5 5 0 0 (by decide)
    (fun m hm => absurd hm (Nat.not_lt_zero m)) (le_refl 0)

/-- C4: for every array and every target absent from it (with a target
supplied), the sequencer yields exactly one frame, whose status is the
"NOT in the list" message with the interpolated target, with the no-active
step label (`format_steps(0)`) and progress 0, and terminates with no other
frame of any kind. -/
theorem absent_target_single_frame (arr : List ℤ) (T : ℤ) (speed : ℤ)
    (h : T ∉ arr) :
    linear_search_animated arr (some T) speed =
      [{ status := .notInList T, visual := none, step := 0, progress := 0 }] := by
  simp [linear_search_animated, h, progress_pct]

/-- Witness for C4 at `arr = [1, 2, 3]`, `T = 99`. -/
theorem absent_target_single_frame_witness :
    linear_search_animated [1, 2, 3] (some 99) 5 =
      [{ status := .notInList 99, visual := none, step := 0, progress := 0 }] :=
  absent_target_single_frame [1, 2, 3] 99 5 (by decide)

/-- C5: `progress_pct done total` is the floor of
`100 * done / max(1, total)` (so the divisor is never zero, even for
`total = 0`), lies in `[0, 100]` whenever `done ≤ total`, is monotone
non-decreasing in `done` for fixed `total`, and equals 100 at
`done = total` for `total ≥ 1`. -/
theorem progress_calculator_contract (done total : ℕ) (h : done ≤ total) :
    ((progress_pct done total : ℤ) =
      ⌊(100 * (done : ℚ)) / ((max 1 total : ℕ) : ℚ)⌋) ∧
    progress_pct done total ≤ 100 ∧
    (∀ d₁ d₂ : ℕ, d₁ ≤ d₂ → progress_pct d₁ total ≤ progress_pct d₂ total) ∧
    (1 ≤ total → progress_pct total total = 100) := by
  refine ⟨?_, progress_pct_le_100 h, ?_, fun h1 => progress_pct_self h1⟩
  · have hcast : (100 * (done : ℚ)) / ((max 1 total : ℕ) : ℚ)
        = ((100 * done : ℕ) : ℚ) / ((max 1 total : ℕ) : ℚ) := by
      push_cast
      ring
    rw [hcast, ← Int.natCast_floor_eq_floor (by positivity), Nat.floor_div_eq_div]
    simp [progress_pct]
  · intro d₁ d₂ hd
    exact Nat.div_le_div_right (Nat.mul_le_mul_left 100 hd)

/-- Witness for C5 at `done = 3`, `total = 4`. -/
theorem progress_calculator_contract_witness :
    progress_pct 3 4 ≤ 100 ∧ progress_pct 4 4 = 100 :=
  ⟨(progress_calculator_contract 3 4 (by norm_num)).2.1,
   (progress_calculator_contract 3 4 (by norm_num)).2.2.2 (by norm_num)⟩

/-- C6: the smoothstep easing `ease t = t * t * (3 - 2 * t)` used for the
approach sub-frames satisfies `ease 0 = 0`, `ease 1 = 1`,
`ease (1/2) = 1/2`, maps `[0, 1]` into `[0, 1]`, and is monotone
non-decreasing on `[0, 1]`. -/
theorem easing_contract :
    ease 0 = 0 ∧ ease 1 = 1 ∧ ease (1 / 2) = 1 / 2 ∧
    (∀ t : ℚ, 0 ≤ t → t ≤ 1 → 0 ≤ ease t ∧ ease t ≤ 1) ∧
    (∀ a b : ℚ, 0 ≤ a → a ≤ b → b ≤ 1 → ease a ≤ ease b) := by
  refine ⟨by norm_num [ease], by norm_num [ease], by norm_num [ease], ?_, ?_⟩
  · intro t ht ht1
    simp only [ease]
    constructor
    · have h3 : (0 : ℚ) ≤ 3 - 2 * t := by linarith
      exact mul_nonneg (mul_nonneg ht ht) h3
    · nlinarith [mul_nonneg (sq_nonneg (1 - t)) (by linarith : (0 : ℚ) ≤ 1 + 2 * t)]
  · intro a b ha hab hb1
    have h1 : (0 : ℚ) ≤ b - a := by linarith
    have h2 : (0 : ℚ) ≤ a * (1 - a) := by nlinarith
    have h3 : (0 : ℚ) ≤ b * (1 - b) := by nlinarith
    have h4 : (0 : ℚ) ≤ a * (1 - b) := by nlinarith
    have h5 : (0 : ℚ) ≤ b * (1 - a) := by nlinarith
    simp only [ease]
    nlinarith [mul_nonneg h1 h2, mul_nonneg h1 h3, mul_nonneg h1 h4,
      mul_nonneg h1 h5]

/-- Witness for C6 at `t = 1/4` and `a = 1/4 ≤ b = 3/4`. -/
theorem easing_contract_witness :
    (0 ≤ ease (1 / 4) ∧ ease (1 / 4) ≤ 1) ∧ ease (1 / 4) ≤ ease (3 / 4) :=
  ⟨easing_contract.2.2.2.1 (1 / 4) (by norm_num) (by norm_num),
   easing_contract.2.2.2.2 (1 / 4) (3 / 4) (by norm_num) (by norm_num)
     (by norm_num)⟩

/-- C8: for every input, the yielded sequence is finite, bounded by one pass
over the array — at most `frames_per_step + 2` frames per element — plus the
start frame and the fixed number of found pulses / end frame.  The bound
covers the empty array, a single-element array, and an absent or missing
target, which all fall inside it. -/
theorem sequence_always_finite (arr : List ℤ) (target : Option ℤ)
    (speed : ℤ) :
    (linear_search_animated arr target speed).length ≤
      1 + arr.length * (frames_per_step speed + 2) + 7 := by
  match target with
  | none => simp [linear_search_animated]
  | some t =>
    by_cases h : t ∈ arr
    · simp only [linear_search_animated, if_pos h, List.length_cons]
      have := search_loop_length t (frames_per_step speed) arr.length arr 0 ∅
      omega
    · simp [linear_search_animated, if_neg h]

/-- C7: in every run the checked set starts empty — a real run (target
present) begins with the start frame, whose checked set is `∅` — and grows
monotonically: in the yielded sequence, the checked set of every frame is a
subset of the checked set of every later frame (`List.Pairwise check_mono`). -/
theorem checked_set_monotone (arr : List ℤ) (target : Option ℤ) (speed : ℤ) :
    (linear_search_animated arr target speed).Pairwise check_mono ∧
    (∀ t, target = some t → t ∈ arr →
      ∃ tl, linear_search_animated arr target speed =
        start_frame arr.length :: tl ∧
          (start_frame arr.length).visual = some ⟨-1, -1, ∅, 0⟩) := by
  constructor
  · match target with
    | none =>
      simp only [linear_search_animated]
      exact List.pairwise_singleton _ _
    | some t =>
      by_cases h : t ∈ arr
      · simp only [linear_search_animated]
        rw [if_pos h]
        refine List.pairwise_cons.2
          ⟨?_, search_loop_pairwise t (frames_per_step speed) arr.length arr 0 ∅⟩
        intro b hb va vb hva hvb
        cases Option.some.inj hva
        show (∅ : Finset ℕ) ⊆ vb.checked
        exact Finset.empty_subset _
      · simp only [linear_search_animated]
        rw [if_neg h]
        exact List.pairwise_singleton _ _
  · intro t ht hmem
    subst ht
    simp only [linear_search_animated]
    rw [if_pos hmem]
    exact ⟨_, rfl, rfl⟩

/-- Witness for C7 at `arr = [4]`, `target = 4`, `speed = 5`. -/
theorem checked_set_monotone_witness :
    (linear_search_animated [4] (some 4) 5).Pairwise check_mono ∧
    (∃ tl, linear_search_animated [4] (some 4) 5 =
      start_frame 1 :: tl ∧
        (start_frame 1).visual = some ⟨-1, -1, ∅, 0⟩) :=
  ⟨(checked_set_monotone [4] (some 4) 5).1,
   (checked_set_monotone [4] (some 4) 5).2 4 rfl (by decide)⟩

/-- C9: two runs started from identical inputs produce identical sequences
of yielded (status, visual, step, progress) tuples.  The generator's only
state (`checked`, the loop index) is local to one invocation, so the run is
a pure function of its three inputs. -/
theorem identical_inputs_identical_runs (a₁ a₂ : List ℤ) (t₁ t₂ : Option ℤ)
    (s₁ s₂ : ℤ) (ha : a₁ = a₂) (ht : t₁ = t₂) (hs : s₁ = s₂) :
    linear_search_animated a₁ t₁ s₁ = linear_search_animated a₂ t₂ s₂ := by
  rw [ha, ht, hs]

/-- Witness for C9 at `arr = [3, 7]`, `target = 7`, `speed = 5`. -/
theorem identical_inputs_identical_runs_witness :
    linear_search_animated [3, 7] (some 7) 5 =
      linear_search_animated [3, 7] (some 7) 5 :=
  identical_inputs_identical_runs [3, 7] [3, 7] (some 7) (some 7) 5 5
    rfl rfl rfl

end LinearSearchVisualizer
